import Mathlib

/-!
Verification of the Identipattern core (`packages/core/src/core.ts`).

JS strings are modeled as lists of UTF-16 code units (`List ℕ`); JS numbers
are modeled as exact integers (`ℤ`/`ℕ`) where the source only manipulates
integers whose magnitude stays far below 2^53 (so double arithmetic is
exact), and as real numbers (`ℝ`) for the geometric computations.
-/

set_option maxRecDepth 10000

namespace Identipattern

/-- `ToInt32` of an integer-valued JS number: wrap into `[-2^31, 2^31)`.
JS applies this to both operands of `<<`. -/
def toInt32 (x : ℤ) : ℤ := (x + 2147483648) % 4294967296 - 2147483648

/-- `x >>> 0` on an integer-valued JS number: wrap into `[0, 2^32)`. -/
def toUint32 (x : ℤ) : ℤ := x % 4294967296

/-- One iteration of the `hashSegment` loop:
`h = ((h << 5) + h) + bytes[i]`.  In JS, `h << 5` coerces `h` to int32,
shifts, and wraps the result to int32; the two additions are then exact
double (here: integer) arithmetic.  Over ≤ 32 bytes the accumulator stays
below 2^53 in magnitude, so integer modeling is exact. -/
def hashStep (h : ℤ) (b : ℕ) : ℤ := toInt32 (toInt32 h * 32) + h + (b : ℤ)

/-- `hashSegment(bytes, start, length)` from core.ts: fold `hashStep` from
5381 over the bytes with index in `[start, start+length)` clipped to the
array bounds (`(bytes.drop start).take length` is exactly that window),
then `Math.abs(h >>> 0)`; `h >>> 0` is already nonnegative, and `natAbs`
lands the result in `ℕ`. -/
def hashSegment (bytes : List ℕ) (start len : ℕ) : ℕ :=
  (toUint32 (((bytes.drop start).take len).foldl hashStep 5381)).natAbs

/-- One step of the DJB2-style reference from the spec: multiply by 33, add
the byte, reduce modulo 2^32. -/
def djb2Step (a : ℤ) (b : ℕ) : ℤ := (33 * a + (b : ℤ)) % 4294967296

/-- The spec's reference accumulator: start at 5381 and apply `djb2Step`
to each byte in `[start, start+length)` clipped to the array bounds. -/
def djb2Ref (bytes : List ℕ) (start len : ℕ) : ℤ :=
  ((bytes.drop start).take len).foldl djb2Step 5381

/-- The slot permutation `permIdx(i) = (i * 73) & 127` from core.ts. -/
def permIdx (i : ℕ) : ℕ := (i * 73) &&& 127

/-- One UTF-16 code unit is a hexadecimal digit, case-insensitive: the
character class `[0-9a-f]` of the validation pattern with the `i` flag. -/
def isHexCode (c : ℕ) : Bool :=
  (48 ≤ c && c ≤ 57) || (97 ≤ c && c ≤ 102) || (65 ≤ c && c ≤ 70)

/-- The test `/^[0-9a-f]{64}$/i.test(hashHex)`: exactly 64 code units, each
a hex digit (either case). -/
def validHash (h : List ℕ) : Bool := h.length == 64 && h.all isHexCode

/-- ASCII `toLowerCase` on one code unit (the validated inputs reaching
`parseBytes` are ASCII, where JS `toLowerCase` acts exactly like this). -/
def toLowerCode (c : ℕ) : ℕ := if 65 ≤ c ∧ c ≤ 90 then c + 32 else c

/-- ASCII upper-casing of one code unit, used to state case-insensitivity
of generation ("the same hash with letters upper-cased"). -/
def toUpperCode (c : ℕ) : ℕ := if 97 ≤ c ∧ c ≤ 122 then c - 32 else c

/-- Value of a hex digit code unit, if it is one (`parseInt` base 16
accepts both cases). -/
def hexVal (c : ℕ) : Option ℕ :=
  if 48 ≤ c ∧ c ≤ 57 then some (c - 48)
  else if 97 ≤ c ∧ c ≤ 102 then some (c - 87)
  else if 65 ≤ c ∧ c ≤ 70 then some (c - 55)
  else none

/-- `parseInt(two-char-string, 16) || 0` from the `parseBytes` loop:
a full hex pair gives its value; a hex digit followed by a non-digit gives
the prefix value (`parseInt` stops at the first bad character); a leading
non-digit gives `NaN`, turned into 0 by `|| 0`. -/
def pairVal (a b : ℕ) : ℕ :=
  match hexVal a with
  | none => 0
  | some va =>
    match hexVal b with
    | none => va
    | some vb => 16 * va + vb

/-- The `parseBytes` loop: consume two code units at a time while
`i + 1 < s.length` (a trailing odd code unit is dropped). -/
def parsePairs : List ℕ → List ℕ
  | a :: b :: t => pairVal a b :: parsePairs t
  | _ => []

/-- `parseBytes(hex)` from core.ts: lower-case, then one byte per pair. -/
def parseBytes (s : List ℕ) : List ℕ := parsePairs (s.map toLowerCode)

/-- `freq1` before the amplitude clamp: `(hashSegment(bytes,0,8) % 5) + 3`. -/
def freq1Raw (bytes : List ℕ) : ℕ := hashSegment bytes 0 8 % 5 + 3

/-- `pseudo = hashSegment(bytes,8,8) % 1024`. -/
def pseudoOf (bytes : List ℕ) : ℕ := hashSegment bytes 8 8 % 1024

/-- `amplitude = ((hashSegment(bytes,16,8) % 1000) / 1000) * 0.35 + 0.35`,
modeled in exact rational arithmetic (the double computation is a division
and two multiplications on small values; all comparisons the code makes
against it are far from any rounding boundary). -/
def amplitudeOf (bytes : List ℕ) : ℚ :=
  ((hashSegment bytes 16 8 % 1000 : ℕ) : ℚ) / 1000 * 0.35 + 0.35

/-- `freq1` after the clamp `if (amplitude < 0.5 && freq1 > 4) freq1 = 4`. -/
def freq1Of (bytes : List ℕ) : ℕ :=
  if amplitudeOf bytes < 0.5 ∧ 4 < freq1Raw bytes then 4 else freq1Raw bytes

/-- `innerAccent = hashSegment(bytes,30,2) % 10`. -/
def innerAccentOf (bytes : List ℕ) : ℕ := hashSegment bytes 30 2 % 10

/-- `centerHollow = (hashSegment(bytes,29,1) & 1) === 1`. -/
def centerHollowOf (bytes : List ℕ) : Bool := hashSegment bytes 29 1 &&& 1 == 1

/-- `nWaves = ((pseudo >> 6) % 3) + 3`. -/
def nWavesOf (bytes : List ℕ) : ℕ := (pseudoOf bytes >>> 6) % 3 + 3

/-- `freq2 = ((pseudo >> 2) & 15) % 5 + 4`. -/
def freq2Of (bytes : List ℕ) : ℕ := ((pseudoOf bytes >>> 2) &&& 15) % 5 + 4

noncomputable section

/-- One sample of the gap scan in `tuneWaves`: at `t = (i/64)·2π`, the
absolute difference between the radius of the current shape and the radius
at the angle shifted by half a period `π / max(f1, 1e-6)`.
`Math.sign(s) * Math.pow(Math.abs(s), gamma)` is `Real.sign s * |s| ^ γ`. -/
def gapSample (f1 amp γ a cm : ℝ) (i : ℕ) : ℝ :=
  let t := (i : ℝ) / 64 * Real.pi * 2
  let s1 := Real.sin (f1 * t)
  let s1c := Real.sign s1 * |s1| ^ γ
  let r1 := amp * (1 + 0.5 * s1c) * a * cm
  let tOpp := t + Real.pi / max f1 0.000001
  let s2 := Real.sin (f1 * tOpp)
  let s2c := Real.sign s2 * |s2| ^ γ
  let r2 := amp * (1 + 0.5 * s2c) * a * cm
  |r1 - r2|

/-- `minGap` after one pass of the 64-sample loop.  The JS loop seeds with
`Infinity` and folds `Math.min` over the 64 samples, which is the plain
minimum of the samples; seeding the fold with sample 0 computes the same
value (`min` is idempotent). -/
def minGapOf (f1 amp γ a cm : ℝ) : ℝ :=
  ((List.range 64).map (gapSample f1 amp γ a cm)).foldl min
    (gapSample f1 amp γ a cm 0)

/-- The corrective step of iteration `iter` of `tuneWaves`, applied when the
scan did not reach `minGapPx`: iteration 0 raises `ampScale` (cap 1.25),
iteration 1 raises `gamma` by 0.2 (cap 1.7), iteration 2 lowers `f1` by 1
(floor 3, only if `f1 > 3`). -/
def tuneUpdate (minGapPx mg : ℝ) (iter : ℕ) (st : ℝ × ℝ × ℝ) : ℝ × ℝ × ℝ :=
  if iter = 0 then
    (st.1, st.2.1, min 1.25 (st.2.2 * Real.sqrt (minGapPx / max mg 0.000001)))
  else if iter = 1 then (st.1, min 1.7 (st.2.1 + 0.2), st.2.2)
  else if 3 < st.1 then (max 3 (st.1 - 1), st.2.1, st.2.2)
  else st

/-- The `for (iter = 0; iter < 3; iter++)` loop of `tuneWaves`, with the
`break` on `minGap >= minGapPx` returning the current state. -/
def tuneGo (amp cm minGapPx : ℝ) : List ℕ → ℝ × ℝ × ℝ → ℝ × ℝ × ℝ
  | [], st => st
  | iter :: rest, st =>
    let mg := minGapOf st.1 amp st.2.1 st.2.2 cm
    if minGapPx ≤ mg then st
    else tuneGo amp cm minGapPx rest (tuneUpdate minGapPx mg iter st)

/-- `tuneWaves(freq1, amplitude, curveMaxPx, thickness)` from core.ts:
start from `(freq1, 1.35, 1.0)`, `minGapPx = max(7*thickness, 6.0)`, and run
the three relaxation iterations. -/
def tuneWaves (freq1 amp cm th : ℝ) : ℝ × ℝ × ℝ :=
  tuneGo amp cm (max (7 * th) 6) [0, 1, 2] (freq1, 1.35, 1)

/-- `radialAt` from core.ts: shaped sine, minimum half-swing enforcement
(rescaling the deviation from the mean `amp*ampScale`), conversion to
pixels, and clamping to `[keepout, curveMaxPx]`. -/
def radialAt (t f1 amp cm keep th γ a : ℝ) : ℝ :=
  let s := Real.sin (f1 * t)
  let sc := Real.sign s * |s| ^ γ
  let rNorm := amp * (1 + 0.5 * sc) * a
  let baseHalf := 0.5 * amp * cm * a
  let minHalf := max (3 * th) 2
  let rNorm' :=
    if baseHalf < minHalf then amp * a + (rNorm - amp * a) * (minHalf / max baseHalf 0.000001)
    else rNorm
  max keep (min cm (rNorm' * cm))

/-- The `r2` helper (`toFixed(2)`): round to the nearest hundredth.  Exact
half-hundredth ties never arise at the inputs any claim evaluates. -/
def round2 (x : ℝ) : ℝ := (round (x * 100) : ℤ) / 100

/-- `curveMaxPx = size*0.38 - max(3*thickness, size*0.05)` with the fixed
`thickness = 0.7`. -/
def curveMaxOf (s : ℝ) : ℝ := s * 0.38 - max (3 * 0.7) (s * 0.05)

/-- The per-category keepout radius before the cap (`size * 0.12 / 0.15 /
0.06 / 0.08 / 0.13`, and 0 for `innerAccent = 4`). -/
def keepoutRaw (accent : ℕ) (s : ℝ) : ℝ :=
  if accent = 0 then s * 0.12
  else if accent = 1 then s * 0.15
  else if accent = 2 then s * 0.06
  else if accent = 3 then s * 0.08
  else if 5 ≤ accent ∧ accent ≤ 9 then s * 0.13
  else 0

/-- `keepout = keepout > 0 ? min(keepout, curveMaxPx * 0.4) : 0`. -/
def keepoutOf (accent : ℕ) (s : ℝ) : ℝ :=
  if 0 < keepoutRaw accent s then min (keepoutRaw accent s) (curveMaxOf s * 0.4) else 0

/-- `borderSize = size * 0.84`. -/
def borderSizeOf (s : ℝ) : ℝ := s * 0.84

/-- `borderOffset = (size - borderSize) / 2`. -/
def borderOffsetOf (s : ℝ) : ℝ := (s - borderSizeOf s) / 2

/-- One drawing primitive of the output, one constructor per `parts.push`
template in core.ts (colors are the fixed literals of each template):
* `bgRect w h`        — `<rect width h fill="white"/>` (unrounded size);
* `gridV x y2` / `gridH y x2` — the two grid lines, stroke blue, width 0.5;
* `borderRect x y w h sw` — the border square, fill none, stroke black;
* `wavePath pts sw`   — `<path d="M…L…">`, fill none, stroke black;
* `markerRect x y w h` — a block, fill black;
* `glyphPath pts hollow sw` — star/triangle/polygon path with `Z`; fill
  none + stroke if `hollow`, else fill black + stroke;
* `dotCircle cx cy r` — the `pushDot` circle, fill black, no stroke;
* `ringCircle cx cy r sw` — one `pushConcentric` circle, fill none. -/
inductive Prim where
  | bgRect (w h : ℝ)
  | gridV (x y2 : ℝ)
  | gridH (y x2 : ℝ)
  | borderRect (x y w h sw : ℝ)
  | wavePath (pts : List (ℝ × ℝ)) (sw : ℝ)
  | markerRect (x y w h : ℝ)
  | glyphPath (pts : List (ℝ × ℝ)) (hollow : Bool) (sw : ℝ)
  | dotCircle (cx cy r : ℝ)
  | ringCircle (cx cy r sw : ℝ)

/-- The `showGrid` batch: for `i = 0..9`, one vertical and one horizontal
line at `pos = (i+1)*(size/10)` (coordinates kept unrounded here; the
final rounding pass applies `r2` exactly where the code does). -/
def gridPrims (s : ℝ) : List Prim :=
  (List.range 10).flatMap fun (i : ℕ) =>
    [Prim.gridV (((i : ℝ) + 1) * (s / 10)) s,
     Prim.gridH (((i : ℝ) + 1) * (s / 10)) s]

/-- The 721 sample points of wave `w`: `t = (i/720)·2π`, radius from
`radialAt`, angle `freq2·t + w·2π/nWaves`, centered at `(s/2, s/2)`. -/
def wavePtsOf (f1 γ a amp cm keep : ℝ) (freq2 nW w : ℕ) (s : ℝ) : List (ℝ × ℝ) :=
  (List.range 721).map fun (i : ℕ) =>
    let t := (i : ℝ) / 720 * Real.pi * 2
    let r := radialAt t f1 amp cm keep 0.7 γ a
    let ang := (freq2 : ℝ) * t + (w : ℝ) * 2 * Real.pi / (nW : ℝ)
    (s / 2 + r * Real.cos ang, s / 2 + r * Real.sin ang)

/-- The wave batch: one path per wave index `w < nWaves`, stroke width the
fixed `thickness = 0.7`. -/
def wavePrimsOf (f1 γ a amp cm keep : ℝ) (freq2 nW : ℕ) (s : ℝ) : List Prim :=
  (List.range nW).map fun w =>
    Prim.wavePath (wavePtsOf f1 γ a amp cm keep freq2 nW w s) 0.7

/-- The rectangle for a set marker slot `i`: `p = permIdx i`,
`side = ⌊p/32⌋`, `posOnSide = (p % 32)/32`, then the four side cases of the
source (`bo` border offset, `bs` border size, `bw`/`bl` block width/length;
`bo + bs` is `blockStart`). -/
def markerOf (bo bs bw bl : ℝ) (i : ℕ) : Prim :=
  let p := permIdx i
  let pos := ((p % 32 : ℕ) : ℝ) / 32
  if p / 32 = 0 then Prim.markerRect (bo + pos * bs - bw / 2) (bo - bl) bw bl
  else if p / 32 = 1 then Prim.markerRect (bo + bs) (bo + pos * bs - bw / 2) bl bw
  else if p / 32 = 2 then Prim.markerRect (bo + pos * bs - bw / 2) (bo + bs) bw bl
  else Prim.markerRect (bo - bl) (bo + pos * bs - bw / 2) bl bw

/-- The marker batch: for `i = 0..127`, emit a block iff
`byteIdx = i >> 3` is in bounds and bit `i & 7` of `bytes[byteIdx]` is set
(`blockWidth = size*0.036`, `blockLength = size*0.07`). -/
def markerPrims (bytes : List ℕ) (s : ℝ) : List Prim :=
  (List.range 128).filterMap fun i =>
    if i >>> 3 < bytes.length ∧ (bytes.getD (i >>> 3) 0 >>> (i &&& 7)) &&& 1 = 1 then
      some (markerOf (borderOffsetOf s) (borderSizeOf s) (s * 0.036) (s * 0.07) i)
    else none

/-- `pushStar`: 10 vertices, angle `i·π/5 - π/2`, radius alternating
`centerR` / `0.4·centerR`. -/
def starPts (cx cy cR : ℝ) : List (ℝ × ℝ) :=
  (List.range 10).map fun (i : ℕ) =>
    let ang := (i : ℝ) * Real.pi / 5 - Real.pi / 2
    let rr := if i % 2 = 0 then cR else cR * 0.4
    (cx + rr * Real.cos ang, cy + rr * Real.sin ang)

/-- `pushTriangle`: 3 vertices at angle `i·2π/3 - π/2`, radius `centerR`. -/
def triPts (cx cy cR : ℝ) : List (ℝ × ℝ) :=
  (List.range 3).map fun (i : ℕ) =>
    let ang := (i : ℝ) * 2 * Real.pi / 3 - Real.pi / 2
    (cx + cR * Real.cos ang, cy + cR * Real.sin ang)

/-- `pushPolygon(nSides)`: `n` vertices at angle `i·2π/n - π/2`. -/
def polyPts (cx cy cR : ℝ) (n : ℕ) : List (ℝ × ℝ) :=
  (List.range n).map fun (i : ℕ) =>
    let ang := (i : ℝ) * 2 * Real.pi / (n : ℝ) - Real.pi / 2
    (cx + cR * Real.cos ang, cy + cR * Real.sin ang)

/-- The center-glyph batch, guarded by `centerR > 0`, dispatching on
`innerAccent` exactly like the `if`/`else if` chain of the source
(`innerAccent = 4` falls through every branch and draws nothing). -/
def glyphPrims (accent : ℕ) (hollow : Bool) (cx cy cR : ℝ) : List Prim :=
  if 0 < cR then
    if accent = 0 then [Prim.glyphPath (starPts cx cy cR) hollow 0.7]
    else if accent = 1 then [Prim.glyphPath (triPts cx cy cR) hollow 0.7]
    else if accent = 2 then [Prim.dotCircle cx cy cR]
    else if accent = 3 then
      (List.range 3).map fun (i : ℕ) =>
        Prim.ringCircle cx cy (cR * (0.4 + (i : ℝ) * 0.3)) (0.7 * 0.8)
    else if 5 ≤ accent ∧ accent ≤ 9 then
      [Prim.glyphPath (polyPts cx cy cR (accent - 1)) hollow 0.7]
    else []
  else []

/-- The full primitive sequence of `generateIdentipattern`, in emission
order, with coordinates as computed (pre-rounding): background, optional
grid, border square (stroke `0.7*0.9`), `nWaves` wave paths, markers,
center glyph at `centerR = keepout * 0.75`. -/
def corePrims (bytes : List ℕ) (size : ℚ) (grid : Bool) : List Prim :=
  let s : ℝ := (size : ℝ)
  let accent := innerAccentOf bytes
  let amp : ℝ := ((amplitudeOf bytes : ℚ) : ℝ)
  let tuned := tuneWaves ((freq1Of bytes : ℕ) : ℝ) amp (curveMaxOf s) 0.7
  [Prim.bgRect s s]
    ++ (if grid then gridPrims s else [])
    ++ [Prim.borderRect (borderOffsetOf s) (borderOffsetOf s) (borderSizeOf s)
          (borderSizeOf s) (0.7 * 0.9)]
    ++ wavePrimsOf tuned.1 tuned.2.1 tuned.2.2 amp (curveMaxOf s)
        (keepoutOf accent s) (freq2Of bytes) (nWavesOf bytes) s
    ++ markerPrims bytes s
    ++ glyphPrims accent (centerHollowOf bytes) (s / 2) (s / 2)
        (keepoutOf accent s * 0.75)

/-- Round one point with `r2`, as the string interpolation does. -/
def roundPt (q : ℝ × ℝ) : ℝ × ℝ := (round2 q.1, round2 q.2)

/-- Apply `r2` to exactly the numbers the source formats with it (the
background size is emitted unrounded; every other coordinate and the
stroke widths go through `r2`). -/
def roundPrim : Prim → Prim
  | .bgRect w h => .bgRect w h
  | .gridV x y2 => .gridV (round2 x) (round2 y2)
  | .gridH y x2 => .gridH (round2 y) (round2 x2)
  | .borderRect x y w h sw =>
      .borderRect (round2 x) (round2 y) (round2 w) (round2 h) (round2 sw)
  | .wavePath pts sw => .wavePath (pts.map roundPt) (round2 sw)
  | .markerRect x y w h =>
      .markerRect (round2 x) (round2 y) (round2 w) (round2 h)
  | .glyphPath pts hollow sw => .glyphPath (pts.map roundPt) hollow (round2 sw)
  | .dotCircle cx cy r => .dotCircle (round2 cx) (round2 cy) (round2 r)
  | .ringCircle cx cy r sw =>
      .ringCircle (round2 cx) (round2 cy) (round2 r) (round2 sw)

/-- The primitives of the emitted document for a given hash and options. -/
def outPrims (h : List ℕ) (size : ℚ) (grid : Bool) : List Prim :=
  (corePrims (parseBytes h) size grid).map roundPrim

end

/-- The options object with its defaults `{ size: 120, showGrid: false }`
(JS numbers are modeled as exact rationals). -/
structure Options where
  size : ℚ := 120
  showGrid : Bool := false

/-- The one error kind of the core: the synchronous `throw new Error("hash
must be 64 hex characters")`. -/
inductive GenError where
  | validation
deriving DecidableEq

/-- The output artifact: the `size×size` document (dimensions emitted
unrounded) together with its ordered primitive list. -/
structure Artifact where
  size : ℚ
  prims : List Prim

/-- `generateIdentipattern(hashHex, options)`: validate, then compose.  The
embedding is a pure function of its two arguments, like the source, which
reads no clock, counter or global state. -/
noncomputable def generateIdentipattern (hashHex : List ℕ)
    (opts : Options := {}) : Except GenError Artifact :=
  if validHash hashHex then
    .ok ⟨opts.size, outPrims hashHex opts.size opts.showGrid⟩
  else .error .validation

/-- Recognize a marker block among the primitives. -/
def Prim.isMarker : Prim → Bool
  | .markerRect .. => true
  | _ => false

/-- Recognize a center-glyph primitive (path, dot or concentric ring). -/
def Prim.isGlyph : Prim → Bool
  | .glyphPath .. => true
  | .dotCircle .. => true
  | .ringCircle .. => true
  | _ => false

/-- Recognize the filled center circle emitted by `pushDot`. -/
def Prim.isDot : Prim → Bool
  | .dotCircle .. => true
  | _ => false

/-- The spec's reference count: bits `0..127`, bit `i & 7` of byte
`i >> 3`, over the byte sequence. -/
def popCount128 (bytes : List ℕ) : ℕ :=
  (List.range 128).countP fun i => (bytes.getD (i >>> 3) 0 >>> (i &&& 7)) &&& 1 == 1

/-- Scale every coordinate of a primitive by `c`, leaving stroke widths and
flags unchanged (the stated meaning of "doubling `size` scales all
size-derived coordinates while stroke widths stay fixed"). -/
def scalePrim (c : ℝ) : Prim → Prim
  | .bgRect w h => .bgRect (c * w) (c * h)
  | .gridV x y2 => .gridV (c * x) (c * y2)
  | .gridH y x2 => .gridH (c * y) (c * x2)
  | .borderRect x y w h sw => .borderRect (c * x) (c * y) (c * w) (c * h) sw
  | .wavePath pts sw => .wavePath (pts.map fun q => (c * q.1, c * q.2)) sw
  | .markerRect x y w h => .markerRect (c * x) (c * y) (c * w) (c * h)
  | .glyphPath pts hollow sw =>
      .glyphPath (pts.map fun q => (c * q.1, c * q.2)) hollow sw
  | .dotCircle cx cy r => .dotCircle (c * cx) (c * cy) (c * r)
  | .ringCircle cx cy r sw => .ringCircle (c * cx) (c * cy) (c * r) sw

/-- The 64-character all-`'0'` hash (code unit 48). -/
def zeros64 : List ℕ := List.replicate 64 48

/-- The 64-character all-`'f'` hash (code unit 102). -/
def fs64 : List ℕ := List.replicate 64 102

/-- A valid hash whose byte at offset 29 is `0x01` (characters 58 and 59
are `'0','1'`; all other characters `'0'`). -/
def byte29one : List ℕ := List.replicate 58 48 ++ [48, 49] ++ List.replicate 4 48

lemma toInt32_emod (x : ℤ) : toInt32 x % 4294967296 = x % 4294967296 := by
  unfold toInt32; omega

lemma hashStep_emod (h : ℤ) (b : ℕ) :
    hashStep h b % 4294967296 = (33 * (h % 4294967296) + (b : ℤ)) % 4294967296 := by
  unfold hashStep
  have h1 := toInt32_emod (toInt32 h * 32)
  have h2 := toInt32_emod h
  have h3 : toInt32 h * 32 % 4294967296 = h * 32 % 4294967296 := by
    omega
  omega

lemma foldl_hashStep_emod (l : List ℕ) :
    ∀ (h a : ℤ), h % 4294967296 = a % 4294967296 →
      (l.foldl hashStep h) % 4294967296 = (l.foldl djb2Step a) % 4294967296 := by
  induction l with
  | nil => intro h a hha; simpa using hha
  | cons b t ih =>
      intro h a hha
      simp only [List.foldl_cons]
      refine ih _ _ ?_
      have hs := hashStep_emod h b
      unfold djb2Step
      omega

lemma foldl_djb2Step_bounds (l : List ℕ) :
    ∀ a : ℤ, 0 ≤ a → a < 4294967296 →
      0 ≤ l.foldl djb2Step a ∧ l.foldl djb2Step a < 4294967296 := by
  induction l with
  | nil => intro a h0 h1; simpa using ⟨h0, h1⟩
  | cons b t ih =>
      intro a h0 h1
      simp only [List.foldl_cons]
      refine ih _ ?_ ?_ <;> unfold djb2Step <;> omega

/-- C3: for every byte sequence, start and length, `hashSegment` agrees with
the DJB2-style reference: starting from 5381, each in-range byte updates the
accumulator to `(acc*33 + byte) mod 2^32`, and the final accumulator is the
unsigned 32-bit value.  The JS `<<`/int32 coercions in the source agree with
this modulo 2^32 at every step. -/
theorem C3_hashSegment_djb2 (bytes : List ℕ) (start len : ℕ) :
    (hashSegment bytes start len : ℤ) = djb2Ref bytes start len := by
  unfold hashSegment djb2Ref
  set l := (bytes.drop start).take len with hl
  have hfold := foldl_hashStep_emod l 5381 5381 rfl
  have hbounds := foldl_djb2Step_bounds l 5381 (by norm_num) (by norm_num)
  have hmod : (l.foldl djb2Step 5381) % 4294967296 = l.foldl djb2Step 5381 :=
    Int.emod_emod_of_dvd _ dvd_rfl ▸ Int.emod_eq_of_lt hbounds.1 hbounds.2
  have : toUint32 (l.foldl hashStep 5381) = l.foldl djb2Step 5381 := by
    unfold toUint32
    omega
  rw [Int.natAbs_of_nonneg (by unfold toUint32; omega)] at *
  omega

/-- C1: `generateIdentipattern` is a pure function of `(hash, size,
showGrid)`: two calls with identical arguments yield identical artifacts.
The embedding is a function because the source computes its result from its
arguments alone — it reads no clock, counter, random source or global
mutable state — so determinism is function application. -/
theorem C1_determinism (h₁ h₂ : List ℕ) (o₁ o₂ : Options)
    (hh : h₁ = h₂) (ho : o₁ = o₂) :
    generateIdentipattern h₁ o₁ = generateIdentipattern h₂ o₂ := by
  rw [hh, ho]

theorem C1_determinism_witness :
    generateIdentipattern zeros64 {} = generateIdentipattern zeros64 {} :=
  C1_determinism zeros64 zeros64 {} {} rfl rfl

/-- C2: the call fails (synchronously, in this pure model) with the
validation error exactly when the input is not 64 case-insensitive hex
characters, and succeeds otherwise; a 63-character string, a 65-character
string and a 64-character string ending in `'g'` (code 103) fail the
check, while 64 `'f'`s and 64 `'0'`s pass it. -/
theorem C2_validation :
    (∀ h o, generateIdentipattern h o = .error .validation ↔ validHash h = false)
    ∧ (∀ h o, validHash h = true ↔ ∃ a, generateIdentipattern h o = .ok a)
    ∧ validHash (List.replicate 63 48) = false
    ∧ validHash (List.replicate 65 48) = false
    ∧ validHash (List.replicate 63 48 ++ [103]) = false
    ∧ validHash fs64 = true
    ∧ validHash zeros64 = true := by
  refine ⟨?_, ?_, by decide, by decide, by decide, by decide, by decide⟩
  · intro h o
    unfold generateIdentipattern
    cases hv : validHash h <;> simp [hv]
  · intro h o
    unfold generateIdentipattern
    cases hv : validHash h <;> simp [hv]

lemma isHex_cases (c : ℕ) (hc : isHexCode c = true) :
    (48 ≤ c ∧ c ≤ 57) ∨ (97 ≤ c ∧ c ≤ 102) ∨ (65 ≤ c ∧ c ≤ 70) := by
  have := hc
  simp only [isHexCode, Bool.or_eq_true, Bool.and_eq_true, decide_eq_true_eq] at this
  tauto

lemma lower_upper_eq (c : ℕ) (hc : isHexCode c = true) :
    toLowerCode (toUpperCode c) = toLowerCode c := by
  rcases isHex_cases c hc with h | h | h <;>
    unfold toUpperCode toLowerCode <;> split_ifs <;> omega

lemma isHex_upper (c : ℕ) (hc : isHexCode c = true) :
    isHexCode (toUpperCode c) = true := by
  rcases isHex_cases c hc with h | h | h <;> unfold toUpperCode <;> split_ifs <;>
    simp only [isHexCode, Bool.or_eq_true, Bool.and_eq_true, decide_eq_true_eq] <;>
    omega

lemma validHash_parts (h : List ℕ) (hv : validHash h = true) :
    h.length = 64 ∧ ∀ c ∈ h, isHexCode c = true := by
  simpa [validHash, Bool.and_eq_true, beq_iff_eq, List.all_eq_true] using hv

lemma validHash_upper (h : List ℕ) (hv : validHash h = true) :
    validHash (h.map toUpperCode) = true := by
  obtain ⟨hlen, hhex⟩ := validHash_parts h hv
  simp only [validHash, Bool.and_eq_true, beq_iff_eq, List.all_eq_true,
    List.length_map]
  refine ⟨hlen, fun c hcmem => ?_⟩
  rcases List.mem_map.1 hcmem with ⟨d, hd, rfl⟩
  exact isHex_upper d (hhex d hd)

lemma parseBytes_upper (h : List ℕ) (hv : validHash h = true) :
    parseBytes (h.map toUpperCode) = parseBytes h := by
  obtain ⟨-, hhex⟩ := validHash_parts h hv
  unfold parseBytes
  rw [List.map_map]
  congr 1
  refine List.map_congr_left fun c hc => ?_
  simpa using lower_upper_eq c (hhex c hc)

lemma hexVal_le (c v : ℕ) (h : hexVal c = some v) : v ≤ 15 := by
  unfold hexVal at h
  split_ifs at h <;> simp_all <;> omega

lemma pairVal_lt (a b : ℕ) : pairVal a b < 256 := by
  unfold pairVal
  rcases ha : hexVal a with _ | va
  · simp
  · have hva := hexVal_le a va ha
    rcases hb : hexVal b with _ | vb
    · simpa using by omega
    · have hvb := hexVal_le b vb hb
      simpa using by omega

lemma parsePairs_length : ∀ l : List ℕ, (parsePairs l).length = l.length / 2
  | [] => by simp [parsePairs]
  | [a] => by simp [parsePairs]
  | a :: b :: t => by
      simp [parsePairs, parsePairs_length t]
      omega

lemma parsePairs_mem : ∀ (l : List ℕ) (x : ℕ), x ∈ parsePairs l → x < 256
  | [], x, hx => by simp [parsePairs] at hx
  | [a], x, hx => by simp [parsePairs] at hx
  | a :: b :: t, x, hx => by
      rcases List.mem_cons.1 (by simpa [parsePairs] using hx) with rfl | h
      · exact pairVal_lt a b
      · exact parsePairs_mem t x h

lemma parseBytes_length (h : List ℕ) : (parseBytes h).length = h.length / 2 := by
  unfold parseBytes
  rw [parsePairs_length, List.length_map]

lemma parseBytes_lt (h : List ℕ) {x : ℕ} (hx : x ∈ parseBytes h) : x < 256 :=
  parsePairs_mem _ x hx

/-- C10: generation is case-insensitive end to end: on any valid hash,
upper-casing the letters changes neither validation nor the artifact,
because `parseBytes` lower-cases before decoding. -/
theorem C10_case_insensitive (h : List ℕ) (o : Options)
    (hv : validHash h = true) :
    generateIdentipattern (h.map toUpperCode) o = generateIdentipattern h o := by
  unfold generateIdentipattern outPrims
  rw [validHash_upper h hv, hv, parseBytes_upper h hv]

theorem C10_case_insensitive_witness :
    validHash zeros64 = true ∧
      generateIdentipattern (zeros64.map toUpperCode) {} =
        generateIdentipattern zeros64 {} :=
  ⟨by decide, C10_case_insensitive zeros64 {} (by decide)⟩

lemma hashSegment_byte29 (bytes : List ℕ) (h29 : 29 < bytes.length)
    (hlt : bytes.getD 29 0 < 256) :
    hashSegment bytes 29 1 = 177573 + bytes.getD 29 0 := by
  unfold hashSegment
  rw [List.getD_eq_getElem bytes 0 h29] at hlt ⊢
  rw [List.drop_eq_getElem_cons h29]
  simp only [List.take_succ_cons, List.take_zero, List.foldl_cons, List.foldl_nil]
  unfold hashStep toInt32 toUint32
  have hcast : ((bytes[29] : ℕ) : ℤ) < 256 := by exact_mod_cast hlt
  omega

/-- C6 counterexample: the hash whose byte at offset 29 is `0x01` has low
bit 1 there, yet `centerHollow` is false — refuting "centerHollow is true
exactly when the lowest bit of byte 29 is 1". -/
theorem C6_counterexample :
    validHash byte29one = true
    ∧ (parseBytes byte29one).getD 29 0 % 2 = 1
    ∧ centerHollowOf (parseBytes byte29one) = false := by
  decide

/-- C6 (amended): `centerHollow` is bit 0 of `hashSegment(29,1)`, and
`hashSegment(29,1) = 177573 + byte29` with 177573 odd, so on every valid
hash `centerHollow` holds exactly when the lowest bit of byte 29 is 0 —
the opposite parity of the claim. -/
theorem C6_center_hollow_parity (h : List ℕ) (hv : validHash h = true) :
    centerHollowOf (parseBytes h) = true ↔ (parseBytes h).getD 29 0 % 2 = 0 := by
  obtain ⟨hlen, -⟩ := validHash_parts h hv
  have h29 : 29 < (parseBytes h).length := by
    rw [parseBytes_length, hlen]; norm_num
  have hmem : (parseBytes h).getD 29 0 ∈ parseBytes h := by
    rw [List.getD_eq_getElem _ 0 h29]
    exact List.getElem_mem _
  have hlt := parseBytes_lt h hmem
  unfold centerHollowOf
  rw [hashSegment_byte29 _ h29 hlt, Nat.and_one_is_mod]
  simp only [beq_iff_eq]
  omega

theorem C6_center_hollow_parity_witness :
    validHash zeros64 = true ∧
      (centerHollowOf (parseBytes zeros64) = true ↔
        (parseBytes zeros64).getD 29 0 % 2 = 0) :=
  ⟨by decide, C6_center_hollow_parity zeros64 (by decide)⟩

lemma tuneUpdate_bounds (minGapPx mg : ℝ) (hpx : 6 ≤ minGapPx)
    (hmg : mg < minGapPx) (iter : ℕ) (st : ℝ × ℝ × ℝ)
    (hf : 3 ≤ st.1) (hg1 : 1.35 ≤ st.2.1) (hg2 : st.2.1 ≤ 1.7)
    (ha1 : 1 ≤ st.2.2) (ha2 : st.2.2 ≤ 1.25) :
    3 ≤ (tuneUpdate minGapPx mg iter st).1
    ∧ 1.35 ≤ (tuneUpdate minGapPx mg iter st).2.1
    ∧ (tuneUpdate minGapPx mg iter st).2.1 ≤ 1.7
    ∧ 1 ≤ (tuneUpdate minGapPx mg iter st).2.2
    ∧ (tuneUpdate minGapPx mg iter st).2.2 ≤ 1.25 := by
  have hd : (0 : ℝ) < max mg 0.000001 :=
    lt_of_lt_of_le (by norm_num) (le_max_right mg 0.000001)
  have hr : 1 ≤ minGapPx / max mg 0.000001 :=
    (one_le_div hd).2 (max_le hmg.le (by linarith))
  have hs : 1 ≤ Real.sqrt (minGapPx / max mg 0.000001) := by
    have h1 := Real.sqrt_le_sqrt hr
    rwa [Real.sqrt_one] at h1
  have hmul : 1 ≤ st.2.2 * Real.sqrt (minGapPx / max mg 0.000001) := by
    calc (1 : ℝ) = 1 * 1 := by ring
    _ ≤ st.2.2 * Real.sqrt (minGapPx / max mg 0.000001) :=
        mul_le_mul ha1 hs (by norm_num) (le_trans zero_le_one ha1)
  unfold tuneUpdate
  split_ifs with hi0 hi1 hif
  · exact ⟨hf, hg1, hg2, le_min (by norm_num) hmul, min_le_left _ _⟩
  · exact ⟨hf, le_min (by norm_num) (by linarith), min_le_left _ _, ha1, ha2⟩
  · exact ⟨le_max_left _ _, hg1, hg2, ha1, ha2⟩
  · exact ⟨hf, hg1, hg2, ha1, ha2⟩

lemma tuneGo_bounds (amp cm minGapPx : ℝ) (hpx : 6 ≤ minGapPx) :
    ∀ (l : List ℕ) (st : ℝ × ℝ × ℝ),
      3 ≤ st.1 → 1.35 ≤ st.2.1 → st.2.1 ≤ 1.7 → 1 ≤ st.2.2 → st.2.2 ≤ 1.25 →
      3 ≤ (tuneGo amp cm minGapPx l st).1
      ∧ 1.35 ≤ (tuneGo amp cm minGapPx l st).2.1
      ∧ (tuneGo amp cm minGapPx l st).2.1 ≤ 1.7
      ∧ 1 ≤ (tuneGo amp cm minGapPx l st).2.2
      ∧ (tuneGo amp cm minGapPx l st).2.2 ≤ 1.25 := by
  intro l
  induction l with
  | nil => intro st h1 h2 h3 h4 h5; exact ⟨h1, h2, h3, h4, h5⟩
  | cons iter rest ih =>
      intro st h1 h2 h3 h4 h5
      unfold tuneGo
      dsimp only
      split_ifs with hbr
      · exact ⟨h1, h2, h3, h4, h5⟩
      · obtain ⟨g1, g2, g3, g4, g5⟩ :=
          tuneUpdate_bounds minGapPx _ hpx (lt_of_not_le hbr) iter st h1 h2 h3 h4 h5
        exact ih _ g1 g2 g3 g4 g5

/-- C8: the tuner runs its (at most three, by construction) relaxation
iterations and always returns; whenever the initial `freq1` is at least 3,
the returned triple satisfies `f1 ≥ 3`, `1.35 ≤ gamma ≤ 1.7` and
`1.0 ≤ ampScale ≤ 1.25`: each corrective step only moves within these
caps (`ampScale` is multiplied by `sqrt(minGapPx/minGap) ≥ 1` and capped at
1.25, `gamma` gains 0.2 capped at 1.7, `f1` drops by 1 only when above 3). -/
theorem C8_tuneWaves_bounds (freq1 : ℕ) (amp cm th : ℝ) (h3 : 3 ≤ freq1) :
    3 ≤ (tuneWaves (freq1 : ℝ) amp cm th).1
    ∧ 1.35 ≤ (tuneWaves (freq1 : ℝ) amp cm th).2.1
    ∧ (tuneWaves (freq1 : ℝ) amp cm th).2.1 ≤ 1.7
    ∧ 1 ≤ (tuneWaves (freq1 : ℝ) amp cm th).2.2
    ∧ (tuneWaves (freq1 : ℝ) amp cm th).2.2 ≤ 1.25 := by
  unfold tuneWaves
  exact tuneGo_bounds amp cm _ (le_max_right _ _) [0, 1, 2] ((freq1 : ℝ), 1.35, 1)
    (by show (3 : ℝ) ≤ (freq1 : ℝ); exact_mod_cast h3)
    (by norm_num) (by norm_num) (by norm_num) (by norm_num)

theorem C8_tuneWaves_bounds_witness :
    3 ≤ (5 : ℕ)
    ∧ (3 ≤ (tuneWaves ((5 : ℕ) : ℝ) 0.5 39.6 0.7).1
        ∧ 1.35 ≤ (tuneWaves ((5 : ℕ) : ℝ) 0.5 39.6 0.7).2.1
        ∧ (tuneWaves ((5 : ℕ) : ℝ) 0.5 39.6 0.7).2.1 ≤ 1.7
        ∧ 1 ≤ (tuneWaves ((5 : ℕ) : ℝ) 0.5 39.6 0.7).2.2
        ∧ (tuneWaves ((5 : ℕ) : ℝ) 0.5 39.6 0.7).2.2 ≤ 1.25) :=
  ⟨by decide, C8_tuneWaves_bounds 5 0.5 39.6 0.7 (by decide)⟩

lemma length_filterMap_if {α β : Type} (p : α → Prop) [DecidablePred p]
    (f : α → β) :
    ∀ l : List α,
      (l.filterMap fun x => if p x then some (f x) else none).length
        = l.countP fun x => decide (p x)
  | [] => by simp
  | a :: t => by
      by_cases hpa : p a <;>
        simp [hpa, List.countP_cons, length_filterMap_if p f t]

lemma isMarker_roundPrim (p : Prim) : (roundPrim p).isMarker = p.isMarker := by
  cases p <;> rfl

lemma isMarker_markerOf (bo bs bw bl : ℝ) (i : ℕ) :
    (markerOf bo bs bw bl i).isMarker = true := by
  unfold markerOf
  dsimp only
  split_ifs <;> rfl

lemma countP_isMarker_grid (s : ℝ) (grid : Bool) :
    (if grid then gridPrims s else []).countP Prim.isMarker = 0 := by
  cases grid
  · simp
  · simp only [if_pos]
    refine List.countP_eq_zero.2 fun p hp => ?_
    simp only [gridPrims, List.mem_flatMap, List.mem_cons, List.not_mem_nil,
      or_false, List.mem_range] at hp
    obtain ⟨i, -, rfl | rfl⟩ := hp <;> simp [Prim.isMarker]

lemma countP_isMarker_waves (f1 γ a amp cm keep : ℝ) (freq2 nW : ℕ) (s : ℝ) :
    (wavePrimsOf f1 γ a amp cm keep freq2 nW s).countP Prim.isMarker = 0 := by
  refine List.countP_eq_zero.2 fun p hp => ?_
  simp only [wavePrimsOf, List.mem_map, List.mem_range] at hp
  obtain ⟨w, -, rfl⟩ := hp
  simp [Prim.isMarker]

lemma countP_isMarker_glyph (accent : ℕ) (hollow : Bool) (cx cy cR : ℝ) :
    (glyphPrims accent hollow cx cy cR).countP Prim.isMarker = 0 := by
  refine List.countP_eq_zero.2 fun p hp => ?_
  unfold glyphPrims at hp
  split_ifs at hp
  all_goals
    simp only [List.mem_singleton, List.mem_map, List.mem_range,
      List.not_mem_nil] at hp
  all_goals
    first
      | (subst hp; simp [Prim.isMarker])
      | (obtain ⟨i, -, rfl⟩ := hp; simp [Prim.isMarker])

lemma markerPrims_length (bytes : List ℕ) (s : ℝ) :
    (markerPrims bytes s).length
      = (List.range 128).countP fun i =>
          decide (i >>> 3 < bytes.length
            ∧ (bytes.getD (i >>> 3) 0 >>> (i &&& 7)) &&& 1 = 1) := by
  unfold markerPrims
  exact length_filterMap_if _ _ _

lemma countP_isMarker_markers (bytes : List ℕ) (s : ℝ) :
    (markerPrims bytes s).countP Prim.isMarker = (markerPrims bytes s).length := by
  rw [List.countP_eq_length]
  intro p hp
  simp only [markerPrims, List.mem_filterMap, List.mem_range] at hp
  obtain ⟨i, -, hi⟩ := hp
  split_ifs at hi
  cases hi
  exact isMarker_markerOf _ _ _ _ _

/-- C4: on every valid hash, the number of marker rectangles in the output
equals the population count of bits 0..127 over the decoded bytes (bit
`i & 7` of byte `i >> 3` for `i < 128`), hence lies between 0 and 128;
the in-bounds guard of the source is vacuous since 64 hex characters give
32 ≥ 16 bytes. -/
theorem C4_marker_count (h : List ℕ) (s : ℚ) (grid : Bool)
    (hv : validHash h = true) :
    (outPrims h s grid).countP Prim.isMarker = popCount128 (parseBytes h)
    ∧ popCount128 (parseBytes h) ≤ 128 := by
  constructor
  · obtain ⟨hlen, -⟩ := validHash_parts h hv
    have hblen : (parseBytes h).length = 32 := by rw [parseBytes_length, hlen]
    unfold outPrims
    rw [List.countP_map]
    have hcomp : (Prim.isMarker ∘ roundPrim) = Prim.isMarker := by
      funext p
      exact isMarker_roundPrim p
    rw [hcomp]
    unfold corePrims
    dsimp only
    have hmark :
        ((List.range 128).countP fun i =>
            decide (i >>> 3 < (parseBytes h).length
              ∧ (parseBytes h).getD (i >>> 3) 0 >>> (i &&& 7) &&& 1 = 1))
          = popCount128 (parseBytes h) := by
      unfold popCount128
      refine List.countP_congr fun i hi => ?_
      rw [List.mem_range] at hi
      have hdiv : i >>> 3 = i / 8 := Nat.shiftRight_eq_div_pow i 3
      have hb : i >>> 3 < 32 := by omega
      simp only [hblen, hb, true_and, decide_eq_true_eq, beq_iff_eq]
    simp only [List.countP_append, countP_isMarker_grid, countP_isMarker_waves,
      countP_isMarker_glyph, countP_isMarker_markers, markerPrims_length, hmark]
    have hbg : ([Prim.bgRect ((s : ℚ) : ℝ) ((s : ℚ) : ℝ)]).countP Prim.isMarker = 0 := by
      simp [Prim.isMarker]
    have hbd : ∀ x y w hh sw : ℝ,
        ([Prim.borderRect x y w hh sw]).countP Prim.isMarker = 0 := by
      intro x y w hh sw
      simp [Prim.isMarker]
    rw [hbg, hbd]
    omega
  · calc popCount128 (parseBytes h) ≤ (List.range 128).length :=
        List.countP_le_length _
    _ = 128 := List.length_range 128

theorem C4_marker_count_witness :
    validHash fs64 = true ∧
      ((outPrims fs64 120 false).countP Prim.isMarker = popCount128 (parseBytes fs64)
        ∧ popCount128 (parseBytes fs64) ≤ 128) :=
  ⟨by decide, C4_marker_count fs64 120 false (by decide)⟩

lemma isGlyph_roundPrim (p : Prim) : (roundPrim p).isGlyph = p.isGlyph := by
  cases p <;> rfl

lemma isGlyph_markerOf (bo bs bw bl : ℝ) (i : ℕ) :
    (markerOf bo bs bw bl i).isGlyph = false := by
  unfold markerOf
  dsimp only
  split_ifs <;> rfl

lemma filter_isGlyph_grid (s : ℝ) (grid : Bool) :
    (if grid then gridPrims s else []).filter Prim.isGlyph = [] := by
  cases grid
  · simp
  · simp only [if_pos]
    refine List.filter_eq_nil_iff.2 fun p hp => ?_
    simp only [gridPrims, List.mem_flatMap, List.mem_cons, List.not_mem_nil,
      or_false, List.mem_range] at hp
    obtain ⟨i, -, rfl | rfl⟩ := hp <;> simp [Prim.isGlyph]

lemma filter_isGlyph_waves (f1 γ a amp cm keep : ℝ) (freq2 nW : ℕ) (s : ℝ) :
    (wavePrimsOf f1 γ a amp cm keep freq2 nW s).filter Prim.isGlyph = [] := by
  refine List.filter_eq_nil_iff.2 fun p hp => ?_
  simp only [wavePrimsOf, List.mem_map, List.mem_range] at hp
  obtain ⟨w, -, rfl⟩ := hp
  simp [Prim.isGlyph]

lemma filter_isGlyph_markers (bytes : List ℕ) (s : ℝ) :
    (markerPrims bytes s).filter Prim.isGlyph = [] := by
  refine List.filter_eq_nil_iff.2 fun p hp => ?_
  simp only [markerPrims, List.mem_filterMap, List.mem_range] at hp
  obtain ⟨i, -, hi⟩ := hp
  split_ifs at hi
  cases hi
  simp [isGlyph_markerOf]

lemma filter_isGlyph_glyphPrims (accent : ℕ) (hollow : Bool) (cx cy cR : ℝ) :
    (glyphPrims accent hollow cx cy cR).filter Prim.isGlyph
      = glyphPrims accent hollow cx cy cR := by
  refine List.filter_eq_self.2 fun p hp => ?_
  unfold glyphPrims at hp
  split_ifs at hp
  all_goals
    simp only [List.mem_singleton, List.mem_map, List.mem_range,
      List.not_mem_nil] at hp
  all_goals
    first
      | (subst hp; simp [Prim.isGlyph])
      | (obtain ⟨i, -, rfl⟩ := hp; simp [Prim.isGlyph])

/-- The glyph primitives of the output are exactly the (rounded) glyph
batch: every earlier batch contains no glyph primitive. -/
lemma filter_isGlyph_out (h : List ℕ) (s : ℚ) (grid : Bool) :
    (outPrims h s grid).filter Prim.isGlyph
      = (glyphPrims (innerAccentOf (parseBytes h)) (centerHollowOf (parseBytes h))
          (((s : ℚ) : ℝ) / 2) (((s : ℚ) : ℝ) / 2)
          (keepoutOf (innerAccentOf (parseBytes h)) ((s : ℚ) : ℝ) * 0.75)).map
            roundPrim := by
  unfold outPrims
  rw [List.filter_map]
  have hcomp : (Prim.isGlyph ∘ roundPrim) = Prim.isGlyph := by
    funext p
    exact isGlyph_roundPrim p
  rw [hcomp]
  unfold corePrims
  dsimp only
  simp only [List.filter_append, filter_isGlyph_grid, filter_isGlyph_waves,
    filter_isGlyph_markers, filter_isGlyph_glyphPrims]
  have hbg : (List.filter Prim.isGlyph [Prim.bgRect ((s : ℚ) : ℝ) ((s : ℚ) : ℝ)]) = [] := by
    simp [Prim.isGlyph]
  have hbd : ∀ x y w hh sw : ℝ,
      (List.filter Prim.isGlyph [Prim.borderRect x y w hh sw]) = [] := by
    intro x y w hh sw
    simp [Prim.isGlyph]
  rw [hbg, hbd]
  simp

lemma innerAccent_lt (bytes : List ℕ) : innerAccentOf bytes < 10 :=
  Nat.mod_lt _ (by norm_num)

lemma keepoutRaw_accent4 (s : ℝ) : keepoutRaw 4 s = 0 := by
  unfold keepoutRaw
  norm_num

lemma curveMax_pos (s : ℝ) (hs : 105 / 19 < s) : 0 < curveMaxOf s := by
  unfold curveMaxOf
  rw [sub_pos]
  exact max_lt (by nlinarith) (by nlinarith)

lemma keepout_pos (accent : ℕ) (s : ℝ) (hacc : accent < 10) (hne : accent ≠ 4)
    (hs : 105 / 19 < s) : 0 < keepoutOf accent s := by
  have hspos : 0 < s := lt_trans (by norm_num) hs
  have hcm := curveMax_pos s hs
  have hraw : 0 < keepoutRaw accent s := by
    unfold keepoutRaw
    interval_cases accent <;> simp_all <;> nlinarith
  unfold keepoutOf
  rw [if_pos hraw]
  exact lt_min hraw (by nlinarith)

lemma keepout_accent4 (s : ℝ) : keepoutOf 4 s = 0 := by
  unfold keepoutOf
  rw [keepoutRaw_accent4]
  simp

lemma glyphPrims_ne_nil (accent : ℕ) (hollow : Bool) (cx cy cR : ℝ)
    (hacc : accent < 10) (hne : accent ≠ 4) (hcr : 0 < cR) :
    glyphPrims accent hollow cx cy cR ≠ [] := by
  unfold glyphPrims
  rw [if_pos hcr]
  interval_cases accent <;> simp_all

lemma glyphPrims_accent4 (hollow : Bool) (cx cy cR : ℝ) :
    glyphPrims 4 hollow cx cy cR = [] := by
  unfold glyphPrims
  split_ifs <;> simp_all

/-- C5 counterexample: on the all-zero hash (whose `innerAccent` is 9 ≠ 4)
with the positive size 4, the output contains no glyph primitive: the
capped keepout `min(size*0.13, curveMaxPx*0.4)` is negative because
`curveMaxPx = 4*0.38 - max(2.1, 4*0.05) < 0`, so `centerR > 0` fails. -/
theorem C5_counterexample :
    validHash zeros64 = true
    ∧ (0 : ℚ) < 4
    ∧ innerAccentOf (parseBytes zeros64) ≠ 4
    ∧ (outPrims zeros64 4 false).countP Prim.isGlyph = 0 := by
  have hacc : innerAccentOf (parseBytes zeros64) = 9 := by decide
  refine ⟨by decide, by norm_num, by rw [hacc]; norm_num, ?_⟩
  rw [List.countP_eq_length_filter, filter_isGlyph_out, hacc]
  have hk : keepoutOf 9 ((4 : ℚ) : ℝ) = -0.232 := by
    unfold keepoutOf keepoutRaw curveMaxOf
    norm_num
  rw [hk]
  have : ¬ (0 : ℝ) < -0.232 * 0.75 := by norm_num
  unfold glyphPrims
  rw [if_neg this]
  simp

/-- C5 (amended): whenever `curveMaxPx > 0` — i.e. `size > 105/19 ≈ 5.53`,
which holds at the default 120 — the output contains a center glyph
primitive iff `innerAccent ≠ 4`, and when `innerAccent = 2` the glyph
batch is exactly one filled circle (`pushDot`), an expression not
involving the `centerHollow` flag.  For smaller sizes the keepout cap
`min(keepout, curveMaxPx*0.4)` can be negative and no glyph is drawn even
though `innerAccent ≠ 4`. -/
theorem C5_glyph_presence (h : List ℕ) (s : ℚ) (grid : Bool)
    (hv : validHash h = true) (hs : 105 / 19 < s) :
    ((outPrims h s grid).countP Prim.isGlyph ≠ 0
        ↔ innerAccentOf (parseBytes h) ≠ 4)
    ∧ (innerAccentOf (parseBytes h) = 2 →
        (outPrims h s grid).filter Prim.isGlyph
          = [Prim.dotCircle (round2 (((s : ℚ) : ℝ) / 2)) (round2 (((s : ℚ) : ℝ) / 2))
              (round2 (keepoutOf 2 ((s : ℚ) : ℝ) * 0.75))]) := by
  have hsr : (105 : ℝ) / 19 < ((s : ℚ) : ℝ) := by
    have h' := (Rat.cast_lt (K := ℝ)).2 hs
    push_cast at h'
    exact h'
  have hacc := innerAccent_lt (parseBytes h)
  constructor
  · rw [List.countP_eq_length_filter, filter_isGlyph_out, List.length_map]
    rw [ne_eq, List.length_eq_zero]
    constructor
    · intro hne heq
      apply hne
      rw [heq, keepout_accent4]
      rw [show (0 : ℝ) * 0.75 = 0 by ring]
      exact glyphPrims_accent4 _ _ _ _
    · intro hne
      have hcr : 0 < keepoutOf (innerAccentOf (parseBytes h)) ((s : ℚ) : ℝ) * 0.75 := by
        have := keepout_pos (innerAccentOf (parseBytes h)) _ hacc hne hsr
        nlinarith
      exact glyphPrims_ne_nil _ _ _ _ _ hacc hne hcr
  · intro h2
    rw [filter_isGlyph_out, h2]
    have hcr : 0 < keepoutOf 2 ((s : ℚ) : ℝ) * 0.75 := by
      have := keepout_pos 2 _ (by norm_num) (by norm_num) hsr
      nlinarith
    unfold glyphPrims
    rw [if_pos hcr]
    norm_num [roundPrim]

theorem C5_glyph_presence_witness :
    (validHash zeros64 = true ∧ (105 : ℚ) / 19 < 120)
    ∧ (((outPrims zeros64 120 false).countP Prim.isGlyph ≠ 0
          ↔ innerAccentOf (parseBytes zeros64) ≠ 4)
        ∧ (innerAccentOf (parseBytes zeros64) = 2 →
            (outPrims zeros64 120 false).filter Prim.isGlyph
              = [Prim.dotCircle (round2 (((120 : ℚ) : ℝ) / 2))
                  (round2 (((120 : ℚ) : ℝ) / 2))
                  (round2 (keepoutOf 2 ((120 : ℚ) : ℝ) * 0.75))])) :=
  ⟨⟨by decide, by norm_num⟩,
    C5_glyph_presence zeros64 120 false (by decide) (by norm_num)⟩

lemma gapSample_nonneg (f1 amp γ a cm : ℝ) (i : ℕ) :
    0 ≤ gapSample f1 amp γ a cm i := by
  unfold gapSample
  exact abs_nonneg _

/-- At sample 0 the two radii coincide: `t = 0` gives `sin(f1·t) = 0`, and
the opposite angle is exactly `π/f1`, so `sin(f1·(t + π/f1)) = sin π = 0`;
both shaped values vanish and the gap is 0. -/
lemma gapSample_zero (f1 amp γ a cm : ℝ) (hf : 3 ≤ f1) :
    gapSample f1 amp γ a cm 0 = 0 := by
  unfold gapSample
  have hne : f1 ≠ 0 := by linarith
  have hmax : max f1 0.000001 = f1 := max_eq_left (by linarith)
  have ht : ((0 : ℕ) : ℝ) / 64 * Real.pi * 2 = 0 := by norm_num
  rw [ht, hmax]
  dsimp only
  rw [mul_zero, Real.sin_zero, Real.sign_zero, zero_mul, zero_add,
    mul_div_cancel₀ Real.pi hne, Real.sin_pi, Real.sign_zero, zero_mul]
  simp

lemma foldl_min_le : ∀ (l : List ℝ) (a : ℝ), l.foldl min a ≤ a
  | [], _ => le_refl _
  | x :: t, a => le_trans (foldl_min_le t (min a x)) (min_le_left a x)

lemma le_foldl_min : ∀ (l : List ℝ) (a b : ℝ),
    b ≤ a → (∀ x ∈ l, b ≤ x) → b ≤ l.foldl min a
  | [], _, _, hba, _ => hba
  | x :: t, a, b, hba, hall =>
      le_foldl_min t (min a x) b
        (le_min hba (hall x (List.mem_cons_self x t)))
        (fun y hy => hall y (List.mem_cons_of_mem x hy))

/-- In exact real arithmetic the 64-sample scan always returns 0 for any
`f1 ≥ 3`: sample 0 contributes a zero gap and every gap is nonnegative.
(In the double-precision source the sample-0 gap is a rounding-level
but equally subthreshold value, so the branch taken is the same.) -/
lemma minGapOf_eq_zero (f1 amp γ a cm : ℝ) (hf : 3 ≤ f1) :
    minGapOf f1 amp γ a cm = 0 := by
  unfold minGapOf
  refine le_antisymm ?_ ?_
  · exact le_trans (foldl_min_le _ _) (le_of_eq (gapSample_zero f1 amp γ a cm hf))
  · refine le_foldl_min _ _ _ (ge_of_eq (gapSample_zero f1 amp γ a cm hf)) ?_
    intro x hx
    rcases List.mem_map.1 hx with ⟨i, -, rfl⟩
    exact gapSample_nonneg f1 amp γ a cm i

lemma tuneGo_cons (amp cm : ℝ) (iter : ℕ) (rest : List ℕ) (f1 γ a : ℝ)
    (hf : 3 ≤ f1) :
    tuneGo amp cm 6 (iter :: rest) (f1, γ, a)
      = tuneGo amp cm 6 rest (tuneUpdate 6 0 iter (f1, γ, a)) := by
  have hstep : tuneGo amp cm 6 (iter :: rest) (f1, γ, a)
      = (if 6 ≤ minGapOf f1 amp γ a cm then (f1, γ, a)
        else tuneGo amp cm 6 rest
          (tuneUpdate 6 (minGapOf f1 amp γ a cm) iter (f1, γ, a))) := rfl
  rw [hstep, minGapOf_eq_zero f1 amp γ a cm hf]
  rw [if_neg (by norm_num : ¬ (6 : ℝ) ≤ 0)]

lemma tuneUpdate_iter0 (f1 γ : ℝ) :
    tuneUpdate 6 0 0 (f1, γ, 1) = (f1, γ, 1.25) := by
  unfold tuneUpdate
  rw [if_pos rfl]
  have hmax : max (0 : ℝ) 0.000001 = 0.000001 := max_eq_right (by norm_num)
  have hdiv : (6 : ℝ) / 0.000001 = 6000000 := by norm_num
  have hsq : min (1.25 : ℝ) (1 * Real.sqrt 6000000) = 1.25 := by
    rw [one_mul]
    refine min_eq_left ?_
    have h2 : (1.25 : ℝ) = Real.sqrt 1.5625 := by
      rw [show (1.5625 : ℝ) = 1.25 ^ 2 by norm_num]
      exact (Real.sqrt_sq (by norm_num)).symm
    rw [h2]
    exact Real.sqrt_le_sqrt (by norm_num)
  dsimp only
  rw [hmax, hdiv, hsq]

lemma tuneUpdate_iter1 (f1 a : ℝ) :
    tuneUpdate 6 0 1 (f1, 1.35, a) = (f1, 1.55, a) := by
  unfold tuneUpdate
  rw [if_neg (by norm_num : (1 : ℕ) ≠ 0), if_pos rfl]
  dsimp only
  norm_num

/-- The full behaviour of `tuneWaves` on any integer `freq1 ≥ 3` with the
fixed `thickness = 0.7` (so `minGapPx = 6`): the scan minimum is 0 in all
three iterations, every corrective step fires, and the result is
`(freq1 - 1 capped below at 3, 1.55, 1.25)` — independent of `amplitude`
and `curveMaxPx`. -/
lemma tuneWaves_char (freq1 : ℕ) (amp cm : ℝ) (h3 : 3 ≤ freq1) :
    tuneWaves ((freq1 : ℕ) : ℝ) amp cm 0.7
      = (if 4 ≤ freq1 then ((freq1 : ℕ) : ℝ) - 1 else ((freq1 : ℕ) : ℝ),
          1.55, 1.25) := by
  have hf : (3 : ℝ) ≤ ((freq1 : ℕ) : ℝ) := by exact_mod_cast h3
  have hpx : max (7 * (0.7 : ℝ)) 6 = 6 := by norm_num
  unfold tuneWaves
  rw [hpx]
  rw [tuneGo_cons amp cm 0 [1, 2] _ _ _ hf, tuneUpdate_iter0]
  rw [tuneGo_cons amp cm 1 [2] _ _ _ hf, tuneUpdate_iter1]
  rw [tuneGo_cons amp cm 2 [] _ _ _ hf]
  have hlast : tuneGo amp cm 6 [] (tuneUpdate 6 0 2 ((freq1 : ℝ), 1.55, 1.25))
      = tuneUpdate 6 0 2 ((freq1 : ℝ), 1.55, 1.25) := rfl
  rw [hlast]
  unfold tuneUpdate
  rw [if_neg (by norm_num : (2 : ℕ) ≠ 0), if_neg (by norm_num : (2 : ℕ) ≠ 1)]
  dsimp only
  by_cases h4 : 4 ≤ freq1
  · have hf4 : (3 : ℝ) < (freq1 : ℝ) := by
      have : (4 : ℝ) ≤ (freq1 : ℝ) := by exact_mod_cast h4
      linarith
    rw [if_pos hf4, if_pos h4]
    have : max (3 : ℝ) ((freq1 : ℝ) - 1) = (freq1 : ℝ) - 1 := by
      refine max_eq_right ?_
      have : (4 : ℝ) ≤ (freq1 : ℝ) := by exact_mod_cast h4
      linarith
    rw [this]
  · have h33 : freq1 = 3 := by omega
    subst h33
    rw [if_neg (by norm_num : ¬ (3 : ℝ) < ((3 : ℕ) : ℝ)), if_neg h4]

lemma min_two_mul (a b : ℝ) : min (2 * a) (2 * b) = 2 * min a b := by
  rcases le_total a b with hab | hab
  · rw [min_eq_left (by linarith), min_eq_left hab]
  · rw [min_eq_right (by linarith), min_eq_right hab]

lemma max_two_mul (a b : ℝ) : max (2 * a) (2 * b) = 2 * max a b := by
  rcases le_total a b with hab | hab
  · rw [max_eq_right (by linarith), max_eq_right hab]
  · rw [max_eq_left (by linarith), max_eq_left hab]

lemma freq1Of_ge3 (bytes : List ℕ) : 3 ≤ freq1Of bytes := by
  unfold freq1Of freq1Raw
  split_ifs <;> omega

lemma amplitude_ge (bytes : List ℕ) :
    (0.35 : ℝ) ≤ ((amplitudeOf bytes : ℚ) : ℝ) := by
  have hq : (0.35 : ℚ) ≤ amplitudeOf bytes := by
    unfold amplitudeOf
    have h0 : (0 : ℚ) ≤ ((hashSegment bytes 16 8 % 1000 : ℕ) : ℚ) :=
      Nat.cast_nonneg _
    have h1 : (0 : ℚ) ≤ ((hashSegment bytes 16 8 % 1000 : ℕ) : ℚ) / 1000 * 0.35 :=
      mul_nonneg (div_nonneg h0 (by norm_num)) (by norm_num)
    linarith
  rw [show (0.35 : ℝ) = ((0.35 : ℚ) : ℝ) from by norm_num]
  exact Rat.cast_le.mpr hq

lemma curveMax_lin (S : ℝ) (hs : 42 ≤ S) : curveMaxOf S = 0.33 * S := by
  unfold curveMaxOf
  rw [max_eq_right (by linarith : 3 * 0.7 ≤ S * 0.05)]
  ring

lemma curveMax_two (S : ℝ) (hs : 42 ≤ S) :
    curveMaxOf (2 * S) = 2 * curveMaxOf S := by
  rw [curveMax_lin S hs, curveMax_lin (2 * S) (by linarith)]
  ring

lemma borderOffsetOf_two (S : ℝ) : borderOffsetOf (2 * S) = 2 * borderOffsetOf S := by
  unfold borderOffsetOf borderSizeOf
  ring

lemma borderSizeOf_two (S : ℝ) : borderSizeOf (2 * S) = 2 * borderSizeOf S := by
  unfold borderSizeOf
  ring

lemma keepoutRaw_two (accent : ℕ) (S : ℝ) :
    keepoutRaw accent (2 * S) = 2 * keepoutRaw accent S := by
  unfold keepoutRaw
  split_ifs <;> ring

lemma keepoutOf_two (accent : ℕ) (S : ℝ) (hs : 42 ≤ S) :
    keepoutOf accent (2 * S) = 2 * keepoutOf accent S := by
  unfold keepoutOf
  rw [keepoutRaw_two]
  by_cases hr : 0 < keepoutRaw accent S
  · rw [if_pos (by linarith), if_pos hr, curveMax_two S hs]
    rw [show 2 * curveMaxOf S * 0.4 = 2 * (curveMaxOf S * 0.4) from by ring]
    rw [min_two_mul]
  · rw [if_neg (by push_neg at hr ⊢; linarith), if_neg hr]
    ring

lemma radialAt_two (t f1 γ a amp cm keep : ℝ)
    (hbig : max (3 * 0.7) 2 ≤ 0.5 * amp * cm * a) :
    radialAt t f1 amp (2 * cm) (2 * keep) 0.7 γ a
      = 2 * radialAt t f1 amp cm keep 0.7 γ a := by
  have h2 : (2 : ℝ) ≤ 0.5 * amp * cm * a := le_trans (le_max_right _ _) hbig
  unfold radialAt
  dsimp only
  rw [show 0.5 * amp * (2 * cm) * a = 2 * (0.5 * amp * cm * a) from by ring]
  rw [if_neg (not_lt.2 (le_trans hbig (by linarith))), if_neg (not_lt.2 hbig)]
  generalize Real.sign (Real.sin (f1 * t)) * |Real.sin (f1 * t)| ^ γ = sc
  rw [show amp * (1 + 0.5 * sc) * a * (2 * cm)
      = 2 * (amp * (1 + 0.5 * sc) * a * cm) from by ring]
  rw [min_two_mul, max_two_mul]

lemma wavePtsOf_two (f1 γ a amp cm keep : ℝ) (freq2 nW w : ℕ) (S : ℝ)
    (hbig : max (3 * 0.7) 2 ≤ 0.5 * amp * cm * a) :
    wavePtsOf f1 γ a amp (2 * cm) (2 * keep) freq2 nW w (2 * S)
      = (wavePtsOf f1 γ a amp cm keep freq2 nW w S).map fun q => (2 * q.1, 2 * q.2) := by
  unfold wavePtsOf
  rw [List.map_map]
  refine List.map_congr_left fun i hi => ?_
  dsimp only [Function.comp]
  rw [radialAt_two _ _ _ _ _ _ _ hbig]
  simp only [Prod.mk.injEq]
  constructor <;> ring

lemma wavePrimsOf_two (f1 γ a amp cm keep : ℝ) (freq2 nW : ℕ) (S : ℝ)
    (hbig : max (3 * 0.7) 2 ≤ 0.5 * amp * cm * a) :
    wavePrimsOf f1 γ a amp (2 * cm) (2 * keep) freq2 nW (2 * S)
      = (wavePrimsOf f1 γ a amp cm keep freq2 nW S).map (scalePrim 2) := by
  unfold wavePrimsOf
  rw [List.map_map]
  refine List.map_congr_left fun w hw => ?_
  dsimp only [Function.comp]
  rw [wavePtsOf_two f1 γ a amp cm keep freq2 nW w S hbig]
  rfl

lemma markerOf_two (bo bs bw bl : ℝ) (i : ℕ) :
    markerOf (2 * bo) (2 * bs) (2 * bw) (2 * bl) i
      = scalePrim 2 (markerOf bo bs bw bl i) := by
  unfold markerOf
  dsimp only
  split_ifs <;> simp only [scalePrim] <;> congr 1 <;> ring

lemma markerPrims_two (bytes : List ℕ) (S : ℝ) :
    markerPrims bytes (2 * S) = (markerPrims bytes S).map (scalePrim 2) := by
  unfold markerPrims
  rw [List.map_filterMap]
  refine List.filterMap_congr fun i hi => ?_
  split_ifs with hc
  · rw [Option.map_some']
    rw [borderOffsetOf_two, borderSizeOf_two,
      show 2 * S * 0.036 = 2 * (S * 0.036) from by ring,
      show 2 * S * 0.07 = 2 * (S * 0.07) from by ring, markerOf_two]
  · rfl

lemma gridPrims_two (S : ℝ) : gridPrims (2 * S) = (gridPrims S).map (scalePrim 2) := by
  unfold gridPrims
  rw [List.map_flatMap]
  refine List.flatMap_congr fun i hi => ?_
  simp only [List.map_cons, List.map_nil, scalePrim]
  rw [show ((i : ℝ) + 1) * (2 * S / 10) = 2 * (((i : ℝ) + 1) * (S / 10)) from by ring]

lemma starPts_two (cx cy cR : ℝ) :
    starPts (2 * cx) (2 * cy) (2 * cR)
      = (starPts cx cy cR).map fun q => (2 * q.1, 2 * q.2) := by
  unfold starPts
  rw [List.map_map]
  refine List.map_congr_left fun i hi => ?_
  dsimp only [Function.comp]
  simp only [Prod.mk.injEq]
  split_ifs <;> constructor <;> ring

lemma triPts_two (cx cy cR : ℝ) :
    triPts (2 * cx) (2 * cy) (2 * cR)
      = (triPts cx cy cR).map fun q => (2 * q.1, 2 * q.2) := by
  unfold triPts
  rw [List.map_map]
  refine List.map_congr_left fun i hi => ?_
  dsimp only [Function.comp]
  simp only [Prod.mk.injEq]
  constructor <;> ring

lemma polyPts_two (cx cy cR : ℝ) (n : ℕ) :
    polyPts (2 * cx) (2 * cy) (2 * cR) n
      = (polyPts cx cy cR n).map fun q => (2 * q.1, 2 * q.2) := by
  unfold polyPts
  rw [List.map_map]
  refine List.map_congr_left fun i hi => ?_
  dsimp only [Function.comp]
  simp only [Prod.mk.injEq]
  constructor <;> ring

lemma glyphPrims_two (accent : ℕ) (hollow : Bool) (cx cy cR : ℝ) :
    glyphPrims accent hollow (2 * cx) (2 * cy) (2 * cR)
      = (glyphPrims accent hollow cx cy cR).map (scalePrim 2) := by
  unfold glyphPrims
  by_cases hcr : 0 < cR
  · rw [if_pos (by linarith), if_pos hcr]
    split_ifs
    · simp only [List.map_cons, List.map_nil, scalePrim, starPts_two]
    · simp only [List.map_cons, List.map_nil, scalePrim, triPts_two]
    · simp only [List.map_cons, List.map_nil, scalePrim]
    · rw [List.map_map]
      refine List.map_congr_left fun i hi => ?_
      dsimp only [Function.comp]
      simp only [scalePrim]
      congr 1
      ring
    · simp only [List.map_cons, List.map_nil, scalePrim, polyPts_two]
    · rfl
  · rw [if_neg (by intro hc; exact hcr (by linarith)), if_neg hcr]
    rfl

/-- C7 (amended): for sizes of at least 42 — where the absolute floor in
`curveOuterMargin = max(2.1, size*0.05)` and the minimum-half-swing rescale
of `radialAt` are both inactive, and the tuner outcome is size-independent
— doubling `size` doubles every emitted coordinate while stroke widths and
flags are untouched (`scalePrim` scales exactly the coordinate fields).
Stated on the pre-rounding primitives; the `r2` rounding is applied to both
outputs afterwards, which is the claim's "up to the 2-decimal rounding". -/
theorem C7_size_scaling (h : List ℕ) (s : ℚ) (grid : Bool)
    (hv : validHash h = true) (hs : 42 ≤ s) :
    corePrims (parseBytes h) (2 * s) grid
      = (corePrims (parseBytes h) s grid).map (scalePrim 2) := by
  have hs42 : (42 : ℝ) ≤ ((s : ℚ) : ℝ) := by exact_mod_cast hs
  have hScast : (((2 * s : ℚ)) : ℝ) = 2 * ((s : ℚ) : ℝ) := by push_cast; ring
  have hamp := amplitude_ge (parseBytes h)
  have hcm : curveMaxOf ((s : ℚ) : ℝ) = 0.33 * ((s : ℚ) : ℝ) := curveMax_lin _ hs42
  have hbig : max (3 * 0.7) 2
      ≤ 0.5 * ((amplitudeOf (parseBytes h) : ℚ) : ℝ) * curveMaxOf ((s : ℚ) : ℝ) * 1.25 := by
    rw [hcm]
    have h1 : (0.35 : ℝ) * (0.33 * 42)
        ≤ ((amplitudeOf (parseBytes h) : ℚ) : ℝ) * (0.33 * ((s : ℚ) : ℝ)) :=
      mul_le_mul hamp (by nlinarith) (by nlinarith) (by linarith)
    refine max_le ?_ ?_ <;> nlinarith
  set bytes := parseBytes h with hbytes
  set S : ℝ := ((s : ℚ) : ℝ) with hSdef
  have e1 : [Prim.bgRect (2 * S) (2 * S)]
      = List.map (scalePrim 2) [Prim.bgRect S S] := by
    simp [scalePrim]
  have e2 : (if grid then gridPrims (2 * S) else [])
      = List.map (scalePrim 2) (if grid then gridPrims S else []) := by
    cases grid <;> simp [gridPrims_two]
  have e3 : [Prim.borderRect (borderOffsetOf (2 * S)) (borderOffsetOf (2 * S))
        (borderSizeOf (2 * S)) (borderSizeOf (2 * S)) (0.7 * 0.9)]
      = List.map (scalePrim 2)
          [Prim.borderRect (borderOffsetOf S) (borderOffsetOf S)
            (borderSizeOf S) (borderSizeOf S) (0.7 * 0.9)] := by
    rw [borderOffsetOf_two, borderSizeOf_two]
    simp [scalePrim]
  have e4 : ∀ f1 : ℝ,
      wavePrimsOf f1 1.55 1.25 ((amplitudeOf bytes : ℚ) : ℝ) (curveMaxOf (2 * S))
          (keepoutOf (innerAccentOf bytes) (2 * S)) (freq2Of bytes)
          (nWavesOf bytes) (2 * S)
        = List.map (scalePrim 2)
            (wavePrimsOf f1 1.55 1.25 ((amplitudeOf bytes : ℚ) : ℝ) (curveMaxOf S)
              (keepoutOf (innerAccentOf bytes) S) (freq2Of bytes)
              (nWavesOf bytes) S) := by
    intro f1
    rw [curveMax_two _ hs42, keepoutOf_two _ _ hs42]
    exact wavePrimsOf_two _ _ _ _ _ _ _ _ _ hbig
  have e5 : markerPrims bytes (2 * S)
      = List.map (scalePrim 2) (markerPrims bytes S) := markerPrims_two _ _
  have e6 : glyphPrims (innerAccentOf bytes) (centerHollowOf bytes)
        (2 * S / 2) (2 * S / 2) (keepoutOf (innerAccentOf bytes) (2 * S) * 0.75)
      = List.map (scalePrim 2)
          (glyphPrims (innerAccentOf bytes) (centerHollowOf bytes)
            (S / 2) (S / 2) (keepoutOf (innerAccentOf bytes) S * 0.75)) := by
    rw [keepoutOf_two _ _ hs42,
      show 2 * S / 2 = 2 * (S / 2) from by ring,
      show 2 * keepoutOf (innerAccentOf bytes) S * 0.75
        = 2 * (keepoutOf (innerAccentOf bytes) S * 0.75) from by ring]
    exact glyphPrims_two _ _ _ _ _
  unfold corePrims
  dsimp only
  rw [hScast]
  rw [tuneWaves_char (freq1Of bytes) _ _ (freq1Of_ge3 _)]
  rw [tuneWaves_char (freq1Of bytes) _ _ (freq1Of_ge3 _)]
  dsimp only
  rw [e1, e2, e3, e4, e5, e6]
  simp only [← List.map_append]

theorem C7_size_scaling_witness :
    (validHash zeros64 = true ∧ (42 : ℚ) ≤ 120)
    ∧ corePrims (parseBytes zeros64) (2 * 120) false
        = (corePrims (parseBytes zeros64) 120 false).map (scalePrim 2) :=
  ⟨⟨by decide, by norm_num⟩, C7_size_scaling zeros64 120 false (by decide) (by norm_num)⟩

/-- The first polygon vertex is the top point `(cx, cy - cR)`:
its angle is `0·2π/n - π/2 = -π/2`. -/
lemma polyPts_head (cx cy cR : ℝ) (n : ℕ) (hn : 0 < n) :
    (polyPts cx cy cR n)[0]? = some (cx, cy - cR) := by
  unfold polyPts
  rw [List.getElem?_map, List.getElem?_range hn, Option.map_some']
  have hang : ((0 : ℕ) : ℝ) * 2 * Real.pi / (n : ℝ) - Real.pi / 2
      = -(Real.pi / 2) := by
    push_cast
    ring
  rw [hang]
  dsimp only
  rw [Real.cos_neg, Real.cos_pi_div_two, Real.sin_neg, Real.sin_pi_div_two]
  simp only [Option.some.injEq, Prod.mk.injEq]
  constructor <;> ring

/-- C7 counterexample: proportional scaling fails below the absolute pixel
floors.  For the all-zero hash (`innerAccent = 9`, an octagon glyph) at
sizes 20 and 40, the glyph keepout is `min(size*0.13, 0.4*(size*0.38 -
max(2.1, size*0.05)))` = 2.2 resp. 5.2 — not proportional because the
margin floor 2.1 binds at size 20 — so the octagon's top vertex sits at
y = 16.1 at size 40 but at y = 2·8.35 = 16.7 in the doubled size-20
output, refuting the claim at a concrete size pair. -/
theorem C7_counterexample :
    validHash zeros64 = true
    ∧ (0 : ℚ) < 20
    ∧ corePrims (parseBytes zeros64) (2 * 20) false
        ≠ (corePrims (parseBytes zeros64) 20 false).map (scalePrim 2) := by
  refine ⟨by decide, by norm_num, ?_⟩
  intro heq
  have hacc : innerAccentOf (parseBytes zeros64) = 9 := by decide
  have hg : ∀ (hollow : Bool) (cx cy cR : ℝ), 0 < cR →
      glyphPrims 9 hollow cx cy cR
        = [Prim.glyphPath (polyPts cx cy cR 8) hollow 0.7] := by
    intro hollow cx cy cR hcr
    unfold glyphPrims
    rw [if_pos hcr]
    norm_num
  unfold corePrims at heq
  dsimp only at heq
  rw [hacc] at heq
  have hc40 : ((2 * 20 : ℚ) : ℝ) = 40 := by norm_num
  have hc20 : ((20 : ℚ) : ℝ) = 20 := by norm_num
  rw [hc40, hc20] at heq
  have hk40 : keepoutOf 9 (40 : ℝ) = 5.2 := by
    unfold keepoutOf keepoutRaw curveMaxOf
    norm_num
  have hk20 : keepoutOf 9 (20 : ℝ) = 2.2 := by
    unfold keepoutOf keepoutRaw curveMaxOf
    norm_num
  rw [hk40, hk20] at heq
  rw [hg (centerHollowOf (parseBytes zeros64)) (40 / 2) (40 / 2) (5.2 * 0.75)
      (by norm_num)] at heq
  rw [hg (centerHollowOf (parseBytes zeros64)) (20 / 2) (20 / 2) (2.2 * 0.75)
      (by norm_num)] at heq
  have hlast := congrArg List.getLast? heq
  simp only [List.map_append, List.map_cons, List.map_nil] at hlast
  rw [List.getLast?_concat, List.getLast?_concat] at hlast
  simp only [scalePrim, Option.some.injEq, Prim.glyphPath.injEq] at hlast
  obtain ⟨hpts, -⟩ := hlast
  have h0 := congrArg (fun l : List (ℝ × ℝ) => l[0]?) hpts
  dsimp only at h0
  rw [polyPts_head _ _ _ _ (by norm_num), List.getElem?_map,
    polyPts_head _ _ _ _ (by norm_num), Option.map_some'] at h0
  simp only [Option.some.injEq, Prod.mk.injEq] at h0
  obtain ⟨-, hy⟩ := h0
  norm_num at hy

/-- C9: the slot-to-position map agrees with `(i*73) mod 128` on
`{0,…,127}` and is injective there: its image has exactly 128 elements. -/
theorem C9_marker_bijection :
    (∀ i ∈ Finset.range 128, permIdx i = i * 73 % 128)
    ∧ ((Finset.range 128).image permIdx).card = 128 := by
  decide

end Identipattern
